import Mathlib

/-!
Shallow embedding of the LaTeX-to-Typst converter
(src/latex-to-typst/main.py and src/latex-to-typst/rules.py).

Text is modelled as List Char.  The rule registry CONVERSION_RULES of
rules.py contains seventeen rules whose regular expressions fall into
exactly three shapes, embedded by RulePattern:

* RulePattern.command nm embeds the pattern  \\NM\s*\x7b([^\x7b\x7d]+)\x7d :
  a backslash, the literal command name NM, any run of whitespace, an
  opening brace, a nonempty run of non-brace characters (capture group 1)
  and a closing brace.  Because no whitespace character is an opening
  brace and no non-brace run can be extended past a brace, the greedy
  backtracking search of Python's re engine is equivalent to the
  deterministic maximal-munch parse implemented by cmdMatch below.
* RulePattern.doubleBackslash embeds  \\\\  (two literal backslashes).
* RulePattern.lineComment embeds  (?m)^%  (a percent sign at the start of
  the text or immediately after a newline).

re.subn is embedded per shape as a left-to-right, non-overlapping scan:
at each position the pattern is tried; on success the replacement is
emitted and scanning resumes after the matched text, otherwise the
character is copied.  The command-rule scan carries a fuel argument
(initialised with the length of the text, which the scan never exhausts:
every match consumes at least one character).
-/

/-- Characters matched by the regular-expression class \s of Python's re
module on str patterns (ASCII whitespace plus the Unicode whitespace
code points). -/
def isPySpace (c : Char) : Bool :=
  c = ' ' || c = '\t' || c = '\n' || c = '\r' || c = '\x0b' || c = '\x0c' ||
  c = '\x1c' || c = '\x1d' || c = '\x1e' || c = '\x1f' || c = '\x85' || c = '\xa0' ||
  c = '\u1680' || (0x2000 ≤ c.toNat && c.toNat ≤ 0x200a) ||
  c = '\u2028' || c = '\u2029' || c = '\u202f' || c = '\u205f' || c = '\u3000'

/-- Characters matched by the class [^\x7b\x7d] of the command patterns in
rules.py: anything except an opening or closing brace. -/
def isArgChar (c : Char) : Bool := !(c = '\x7b' || c = '\x7d')

/-- One piece of a replacement template: a literal run of characters or a
positional reference to a capture group (rules.py writes group 1 as \1). -/
inductive TmplItem : Type
  | lit : List Char → TmplItem
  | group : Nat → TmplItem
deriving DecidableEq

/-- The three regular-expression shapes occurring in rules.py. -/
inductive RulePattern : Type
  | command : List Char → RulePattern
  | doubleBackslash : RulePattern
  | lineComment : RulePattern
deriving DecidableEq

/-- Number of capture groups of each pattern shape: the command patterns
have exactly one group ([^\x7b\x7d]+); the other two have none. -/
def RulePattern.numGroups : RulePattern → Nat
  | RulePattern.command _ => 1
  | RulePattern.doubleBackslash => 0
  | RulePattern.lineComment => 0

/-- Embeds the dataclass ConversionRule of rules.py. -/
structure ConversionRule where
  pattern : RulePattern
  replacement : List TmplItem
  name : String
  description : String
deriving DecidableEq

/-- Embeds the list CONVERSION_RULES of rules.py, in source order. -/
def CONVERSION_RULES : List ConversionRule :=
  [⟨RulePattern.command ['g', 'l', 's', 'p', 'l'],
    [TmplItem.lit "#glspl(\"".data, TmplItem.group 1, TmplItem.lit "\")".data],
    "glspl",
    "Convert plural glossary references (\\glspl\x7bterm\x7d → #glspl(\"term\"))"⟩,
   ⟨RulePattern.command ['g', 'l', 's'],
    [TmplItem.lit "#gls(\"".data, TmplItem.group 1, TmplItem.lit "\")".data],
    "gls",
    "Convert singular glossary references (\\gls\x7bterm\x7d → #gls(\"term\"))"⟩,
   ⟨RulePattern.command ['t', 'e', 'x', 't', 'i', 't'],
    [TmplItem.lit "_".data, TmplItem.group 1, TmplItem.lit "_".data],
    "textit",
    "Convert italic text formatting (\\textit\x7btext\x7d → _text_)"⟩,
   ⟨RulePattern.command ['e', 'm', 'p', 'h'],
    [TmplItem.lit "_".data, TmplItem.group 1, TmplItem.lit "_".data],
    "emph",
    "Convert emphasized text (\\emph\x7btext\x7d → _text_)"⟩,
   ⟨RulePattern.command ['t', 'e', 'x', 't', 'b', 'f'],
    [TmplItem.lit "*".data, TmplItem.group 1, TmplItem.lit "*".data],
    "textbf",
    "Convert bold text formatting (\\textbf\x7btext\x7d → *text*)"⟩,
   ⟨RulePattern.command ['c', 'h', 'a', 'p', 't', 'e', 'r'],
    [TmplItem.lit "= ".data, TmplItem.group 1],
    "chapter",
    "Convert chapter headings (\\chapter\x7bTitle\x7d → = Title)"⟩,
   ⟨RulePattern.command ['s', 'e', 'c', 't', 'i', 'o', 'n'],
    [TmplItem.lit "== ".data, TmplItem.group 1],
    "section",
    "Convert section headings (\\section\x7bTitle\x7d → == Title)"⟩,
   ⟨RulePattern.command ['s', 'u', 'b', 's', 'e', 'c', 't', 'i', 'o', 'n'],
    [TmplItem.lit "=== ".data, TmplItem.group 1],
    "subsection",
    "Convert subsection headings (\\subsection\x7bTitle\x7d → === Title)"⟩,
   ⟨RulePattern.command ['s', 'u', 'b', 's', 'u', 'b', 's', 'e', 'c', 't', 'i', 'o', 'n'],
    [TmplItem.lit "==== ".data, TmplItem.group 1],
    "subsubsection",
    "Convert subsubsection headings (\\subsubsection\x7bTitle\x7d → ==== Title)"⟩,
   ⟨RulePattern.command ['l', 'a', 'b', 'e', 'l'],
    [TmplItem.lit "<".data, TmplItem.group 1, TmplItem.lit ">".data],
    "label",
    "Convert labels for cross-references (\\label\x7bref\x7d → <ref>)"⟩,
   ⟨RulePattern.command ['r', 'e', 'f'],
    [TmplItem.lit "@".data, TmplItem.group 1],
    "ref",
    "Convert cross-references (\\ref\x7blabel\x7d → @label)"⟩,
   ⟨RulePattern.command ['t', 'e', 'x', 't', 'c', 'i', 't', 'e'],
    [TmplItem.lit "@".data, TmplItem.group 1],
    "textcite",
    "Convert textual citations (\\textcite\x7bkey\x7d → @key)"⟩,
   ⟨RulePattern.command ['c', 'i', 't', 'e'],
    [TmplItem.lit "@".data, TmplItem.group 1],
    "cite",
    "Convert parenthetical citations (\\cite\x7bkey\x7d → @key)"⟩,
   ⟨RulePattern.command ['f', 'o', 'o', 't', 'n', 'o', 't', 'e'],
    [TmplItem.lit "#footnote[".data, TmplItem.group 1, TmplItem.lit "]".data],
    "footnote",
    "Convert footnotes (\\footnote\x7btext\x7d → #footnote[text])"⟩,
   ⟨RulePattern.command ['e', 'n', 'q', 'u', 'o', 't', 'e'],
    [TmplItem.lit "\"".data, TmplItem.group 1, TmplItem.lit "\"".data],
    "enquote",
    "Convert quoted text (\\enquote\x7btext\x7d → \"text\")"⟩,
   ⟨RulePattern.doubleBackslash,
    [TmplItem.lit "\\".data],
    "double backslash",
    "Convert line breaks (double backslash → single backslash)"⟩,
   ⟨RulePattern.lineComment,
    [TmplItem.lit "//".data],
    "line comment",
    "Convert LaTeX comments (% comment → // comment)"⟩]

/-- Instantiates a replacement template: literal pieces are copied, the
reference to capture group 1 is replaced by the captured text.  (Every
group reference occurring in CONVERSION_RULES is \1.) -/
def applyTmpl (tmpl : List TmplItem) (arg : List Char) : List Char :=
  match tmpl with
  | [] => []
  | TmplItem.lit l :: rest => l ++ applyTmpl rest arg
  | TmplItem.group n :: rest => (if n = 1 then arg else []) ++ applyTmpl rest arg

/-- Maximal run of characters satisfying p at the front of a list,
together with the remainder (the embedding of a greedy character-class
repetition such as \s* or [^\x7b\x7d]+). -/
def spanP (p : Char → Bool) : List Char → List Char × List Char
  | [] => ([], [])
  | c :: rest =>
    if p c then
      let q := spanP p rest
      (c :: q.1, q.2)
    else ([], c :: rest)

/-- Matches the literal character sequence nm at the front of a list and
returns the remainder, or none on a mismatch. -/
def dropName : List Char → List Char → Option (List Char)
  | [], s => some s
  | _ :: _, [] => none
  | a :: as, b :: bs => if a = b then dropName as bs else none

/-- Tries the command pattern \\NM\s*\x7b([^\x7b\x7d]+)\x7d at the front
of s.  On success returns the text of capture group 1 and the remainder
of s after the matched text. -/
def cmdMatch (nm : List Char) (s : List Char) : Option (List Char × List Char) :=
  match s with
  | [] => none
  | c :: s1 =>
    if c = '\\' then
      match dropName nm s1 with
      | none => none
      | some s2 =>
        let sp := spanP isPySpace s2
        match sp.2 with
        | [] => none
        | b :: s3 =>
          if b = '\x7b' then
            let ar := spanP isArgChar s3
            match ar.2 with
            | [] => none
            | d :: s5 =>
              if d = '\x7d' ∧ ar.1 ≠ [] then some (ar.1, s5) else none
          else none
    else none

/-- Embeds re.subn for a command pattern: a left-to-right non-overlapping
scan of the text.  The fuel argument only serves termination; subnCmd
below supplies the length of the text, which is never exhausted because
every match consumes at least one character. -/
def subnCmdGo (nm : List Char) (tmpl : List TmplItem) : Nat → List Char → List Char × Nat
  | _, [] => ([], 0)
  | 0, c :: rest => (c :: rest, 0)
  | fuel + 1, c :: rest =>
    match cmdMatch nm (c :: rest) with
    | some (arg, rem) =>
      let p := subnCmdGo nm tmpl fuel rem
      (applyTmpl tmpl arg ++ p.1, p.2 + 1)
    | none =>
      let p := subnCmdGo nm tmpl fuel rest
      (c :: p.1, p.2)

/-- re.subn for a command rule of rules.py. -/
def subnCmd (nm : List Char) (tmpl : List TmplItem) (s : List Char) : List Char × Nat :=
  subnCmdGo nm tmpl s.length s

/-- Embeds re.subn for the pattern \\\\ : each non-overlapping occurrence
of two consecutive backslashes is replaced by rep. -/
def subnDouble (rep : List Char) : List Char → List Char × Nat
  | [] => ([], 0)
  | [c] => ([c], 0)
  | c :: c2 :: rest2 =>
    if c = '\\' ∧ c2 = '\\' then
      let p := subnDouble rep rest2
      (rep ++ p.1, p.2 + 1)
    else
      let p := subnDouble rep (c2 :: rest2)
      (c :: p.1, p.2)

/-- Embeds re.subn for the pattern (?m)^% : a percent sign at the start
of the text or directly after a newline is replaced by rep.  The flag
atStart records whether the current position starts a line. -/
def subnLineComment (rep : List Char) : Bool → List Char → List Char × Nat
  | _, [] => ([], 0)
  | atStart, c :: rest =>
    if atStart ∧ c = '%' then
      let p := subnLineComment rep false rest
      (rep ++ p.1, p.2 + 1)
    else
      let p := subnLineComment rep (c = '\n') rest
      (c :: p.1, p.2)

/-- Embeds the call re.subn(rule.pattern, rule.replacement, text) of
main.py line 28, dispatching on the shape of the rule's pattern. -/
def applyRule (r : ConversionRule) (s : List Char) : List Char × Nat :=
  match r.pattern with
  | RulePattern.command nm => subnCmd nm r.replacement s
  | RulePattern.doubleBackslash => subnDouble (applyTmpl r.replacement []) s
  | RulePattern.lineComment => subnLineComment (applyTmpl r.replacement []) true s

/-- Text of the progress line printed by main.py line 30 for a rule that
made n replacements. -/
def fmtLine (name : String) (n : Nat) : List Char :=
  ("[" ++ name ++ "] " ++ toString n ++ " replacements").data

/-- Loop body of transform (main.py lines 27-31): apply each rule in
order to the whole current text; when a rule made replacements and
verbose is set, record the printed progress line. -/
def transformVGo (verbose : Bool) :
    List ConversionRule → List Char → List (List Char) → List Char × List (List Char)
  | [], text, lines => (text, lines)
  | r :: rs, text, lines =>
    let p := applyRule r text
    transformVGo verbose rs p.1
      (if p.2 ≠ 0 ∧ verbose = true then lines ++ [fmtLine r.name p.2] else lines)

/-- Embeds transform of main.py lines 16-32: the returned text together
with the list of progress lines it prints (modelled as a value). -/
def transform (text : List Char) (verbose : Bool) : List Char × List (List Char) :=
  transformVGo verbose CONVERSION_RULES text []

/-- The string returned by transform (main.py line 32). -/
def transformText (text : List Char) : List Char :=
  (transform text true).1

/-- Modelled from the spec (section 4.2): the processing fold written
exactly as the spec states it — current starts as the input text; each
rule performs one global substitution over current; a rule with a
positive count appends (rule.name, count) to the log. -/
def spec_transform_go :
    List ConversionRule → List Char → List (String × Nat) → List Char × List (String × Nat)
  | [], current, log => (current, log)
  | r :: rs, current, log =>
    let next := applyRule r current
    spec_transform_go rs next.1 (if 0 < next.2 then log ++ [(r.name, next.2)] else log)

/-- Modelled from the spec (section 4.2): the contract
transform(text, registry) -> (string, log) over the fixed registry. -/
def spec_transform (text : List Char) : List Char × List (String × Nat) :=
  spec_transform_go CONVERSION_RULES text []

/-- Decides whether a command pattern matches anywhere in s. -/
def cmdHasMatch (nm : List Char) : List Char → Bool
  | [] => false
  | c :: rest => (cmdMatch nm (c :: rest)).isSome || cmdHasMatch nm rest

/-- Decides whether two consecutive backslashes occur anywhere in s. -/
def dblHasMatch : List Char → Bool
  | [] => false
  | c :: rest =>
    match rest with
    | [] => false
    | c2 :: _ => (c = '\\' && c2 = '\\') || dblHasMatch rest

/-- Decides whether a line-starting percent sign occurs anywhere in s,
given whether the current position starts a line. -/
def lcHasMatch : Bool → List Char → Bool
  | _, [] => false
  | atStart, c :: rest => (atStart && c = '%') || lcHasMatch (c = '\n') rest

/-- Decides whether a rule's pattern has at least one match in s. -/
def ruleHasMatch (r : ConversionRule) (s : List Char) : Bool :=
  match r.pattern with
  | RulePattern.command nm => cmdHasMatch nm s
  | RulePattern.doubleBackslash => dblHasMatch s
  | RulePattern.lineComment => lcHasMatch true s

/-- The fragment \textbf\x7ba\x7bb\x7dc\x7d of claim C3: a textbf command
whose argument contains an inner brace pair. -/
def frag : List Char :=
  ['\\', 't', 'e', 'x', 't', 'b', 'f', '\x7b', 'a', '\x7b', 'b', '\x7d', 'c', '\x7d']

/-- The fragment of claim C3 without its leading backslash. -/
def fragTail : List Char :=
  ['t', 'e', 'x', 't', 'b', 'f', '\x7b', 'a', '\x7b', 'b', '\x7d', 'c', '\x7d']

/-- Pure text component of the rule fold, used to show that the verbose
flag cannot influence the returned text. -/
def textFold : List ConversionRule → List Char → List Char
  | [], t => t
  | r :: rs, t => textFold rs (applyRule r t).1

/-- Decides that every capture-group reference of a template lies between
1 and the number g of capture groups of the rule's pattern. -/
def tmplGroupsOk (tmpl : List TmplItem) (g : Nat) : Bool :=
  tmpl.all (fun item =>
    match item with
    | TmplItem.lit _ => true
    | TmplItem.group n => decide (1 ≤ n ∧ n ≤ g))

/-- Decides whether a template contains any capture-group reference. -/
def tmplHasGroupRef (tmpl : List TmplItem) : Bool :=
  tmpl.any (fun item =>
    match item with
    | TmplItem.lit _ => false
    | TmplItem.group _ => true)

theorem transformVGo_fst (rs : List ConversionRule) :
    ∀ (v : Bool) (text : List Char) (lines : List (List Char)),
      (transformVGo v rs text lines).1 = textFold rs text := by
  induction rs with
  | nil => intro v text lines; rfl
  | cons r rs ih =>
    intro v text lines
    simp only [transformVGo, textFold]
    exact ih v _ _

theorem transformVGo_spec (rs : List ConversionRule) :
    ∀ (text : List Char) (log : List (String × Nat)),
      transformVGo true rs text (List.map (fun p => fmtLine p.1 p.2) log) =
        ((spec_transform_go rs text log).1,
          List.map (fun p => fmtLine p.1 p.2) (spec_transform_go rs text log).2) := by
  induction rs with
  | nil => intro text log; rfl
  | cons r rs ih =>
    intro text log
    simp only [transformVGo, spec_transform_go]
    by_cases h : (applyRule r text).2 = 0
    · rw [if_neg (by simp [h]), if_neg (by omega)]
      exact ih _ log
    · rw [if_pos (by simp [h]), if_pos (by omega)]
      rw [show List.map (fun p => fmtLine p.1 p.2) log ++ [fmtLine r.name (applyRule r text).2] =
            List.map (fun p => fmtLine p.1 p.2) (log ++ [(r.name, (applyRule r text).2)]) from by
        simp]
      exact ih _ _

theorem subnCmdGo_no_match (nm : List Char) (tmpl : List TmplItem) :
    ∀ (fuel : Nat) (s : List Char), cmdHasMatch nm s = false →
      subnCmdGo nm tmpl fuel s = (s, 0) := by
  intro fuel
  induction fuel with
  | zero => intro s _; cases s <;> rfl
  | succ fuel ih =>
    intro s h
    cases s with
    | nil => rfl
    | cons c rest =>
      simp only [cmdHasMatch, Bool.or_eq_false_iff] at h
      cases hm : cmdMatch nm (c :: rest) with
      | some v =>
        rw [hm] at h
        simp at h
      | none =>
        simp only [subnCmdGo, hm, ih rest h.2]

theorem subnDouble_no_match (rep : List Char) :
    ∀ (s : List Char), dblHasMatch s = false → subnDouble rep s = (s, 0)
  | [], _ => rfl
  | [_], _ => rfl
  | c :: c2 :: rest, h => by
    simp only [dblHasMatch, Bool.or_eq_false_iff] at h
    obtain ⟨ha, hb⟩ := h
    have h1 : ¬(c = '\\' ∧ c2 = '\\') := by
      intro he
      rw [he.1, he.2] at ha
      simp at ha
    have ih := subnDouble_no_match rep (c2 :: rest) hb
    simp only [subnDouble, if_neg h1, ih]

theorem subnLineComment_no_match (rep : List Char) :
    ∀ (s : List Char) (b : Bool), lcHasMatch b s = false →
      subnLineComment rep b s = (s, 0) := by
  intro s
  induction s with
  | nil => intro b _; rfl
  | cons c rest ih =>
    intro b h
    simp only [lcHasMatch, Bool.or_eq_false_iff] at h
    obtain ⟨ha, hb⟩ := h
    have h1 : ¬(b = true ∧ c = '%') := by
      intro he
      rw [he.1, he.2] at ha
      simp at ha
    simp only [subnLineComment, if_neg h1]
    rw [ih _ hb]

theorem applyRule_no_match (r : ConversionRule) (s : List Char)
    (h : ruleHasMatch r s = false) : applyRule r s = (s, 0) := by
  unfold applyRule ruleHasMatch at *
  cases hp : r.pattern with
  | command nm =>
    rw [hp] at h
    exact subnCmdGo_no_match nm r.replacement s.length s h
  | doubleBackslash =>
    rw [hp] at h
    exact subnDouble_no_match _ s h
  | lineComment =>
    rw [hp] at h
    exact subnLineComment_no_match _ s true h

theorem transformVGo_fixed (rs : List ConversionRule) :
    ∀ (text : List Char) (lines : List (List Char)),
      (∀ r ∈ rs, ruleHasMatch r text = false) →
      transformVGo true rs text lines = (text, lines) := by
  induction rs with
  | nil => intro text lines _; rfl
  | cons r rs ih =>
    intro text lines h
    have h0 := applyRule_no_match r text (h r (by simp))
    simp only [transformVGo, h0]
    rw [if_neg (by simp)]
    exact ih text lines (fun q hq => h q (by simp [hq]))

theorem dropName_decomp : ∀ (nm s s2 : List Char), dropName nm s = some s2 → s = nm ++ s2 := by
  intro nm
  induction nm with
  | nil =>
    intro s s2 h
    simp only [dropName, Option.some.injEq] at h
    simp [h]
  | cons a as ih =>
    intro s s2 h
    cases s with
    | nil => simp [dropName] at h
    | cons b bs =>
      simp only [dropName] at h
      by_cases hab : a = b
      · rw [if_pos hab] at h
        have hbs := ih bs s2 h
        simp [hab, hbs]
      · rw [if_neg hab] at h
        cases h

theorem spanP_decomp (p : Char → Bool) :
    ∀ s : List Char,
      s = (spanP p s).1 ++ (spanP p s).2 ∧ ∀ c ∈ (spanP p s).1, p c = true := by
  intro s
  induction s with
  | nil => simp [spanP]
  | cons c rest ih =>
    by_cases hc : p c = true
    · simp only [spanP, if_pos hc]
      constructor
      · rw [List.cons_append, ← ih.1]
      · intro d hd
        rcases List.mem_cons.mp hd with h | h
        · rw [h]; exact hc
        · exact ih.2 d h
    · simp only [spanP, if_neg hc]
      simp

theorem cmdMatch_decomp (nm : List Char) :
    ∀ (s arg rem : List Char), cmdMatch nm s = some (arg, rem) →
      ∃ sp, s = '\\' :: (nm ++ (sp ++ ('\x7b' :: (arg ++ ('\x7d' :: rem))))) ∧
        (∀ c ∈ sp, isPySpace c = true) ∧ (∀ c ∈ arg, isArgChar c = true) ∧ arg ≠ [] := by
  intro s arg rem h
  cases s with
  | nil => cases h
  | cons c s1 =>
    simp only [cmdMatch] at h
    by_cases hc : c = '\\'
    case neg => rw [if_neg hc] at h; cases h
    rw [if_pos hc] at h
    cases hd : dropName nm s1 with
    | none =>
      simp only [hd] at h
      cases h
    | some s2 =>
      simp only [hd] at h
      cases hsp : (spanP isPySpace s2).2 with
      | nil =>
        simp only [hsp] at h
        cases h
      | cons b s3 =>
        simp only [hsp] at h
        by_cases hb : b = '\x7b'
        case neg => rw [if_neg hb] at h; cases h
        rw [if_pos hb] at h
        cases har : (spanP isArgChar s3).2 with
        | nil =>
          simp only [har] at h
          cases h
        | cons d s5 =>
          simp only [har] at h
          by_cases hcond : d = '\x7d' ∧ (spanP isArgChar s3).1 ≠ []
          case neg => rw [if_neg hcond] at h; cases h
          rw [if_pos hcond] at h
          simp only [Option.some.injEq, Prod.mk.injEq] at h
          obtain ⟨harg, hrem⟩ := h
          refine ⟨(spanP isPySpace s2).1, ?_, ?_, ?_, ?_⟩
          · have e1 := dropName_decomp nm s1 s2 hd
            have e2 := (spanP_decomp isPySpace s2).1
            have e3 := (spanP_decomp isArgChar s3).1
            rw [hsp] at e2
            rw [har, harg, hcond.1, hrem] at e3
            subst e1
            conv_lhs => rw [e2, e3]
            rw [hc, hb]
          · exact (spanP_decomp isPySpace s2).2
          · rw [← harg]; exact (spanP_decomp isArgChar s3).2
          · rw [← harg]; exact hcond.2

theorem cmdMatch_rem_length (nm : List Char) (s arg rem : List Char)
    (h : cmdMatch nm s = some (arg, rem)) : rem.length < s.length := by
  obtain ⟨sp, hs, -, -, -⟩ := cmdMatch_decomp nm s arg rem h
  rw [hs]
  simp [List.length_append]
  omega

theorem subnCmdGo_fuel (nm : List Char) (tmpl : List TmplItem) :
    ∀ (f1 : Nat) (s : List Char) (f2 : Nat), s.length ≤ f1 → s.length ≤ f2 →
      subnCmdGo nm tmpl f1 s = subnCmdGo nm tmpl f2 s := by
  intro f1
  induction f1 with
  | zero =>
    intro s f2 h1 _
    have hnil : s = [] := List.eq_nil_of_length_eq_zero (by omega)
    subst hnil
    cases f2 <;> rfl
  | succ f1 ih =>
    intro s f2 h1 h2
    cases s with
    | nil => cases f2 <;> rfl
    | cons c rest =>
      cases f2 with
      | zero => simp at h2
      | succ f2 =>
        simp only [List.length_cons] at h1 h2
        cases hm : cmdMatch nm (c :: rest) with
        | none =>
          simp only [subnCmdGo, hm]
          rw [ih rest f2 (by omega) (by omega)]
        | some v =>
          obtain ⟨arg, rem⟩ := v
          have hlen := cmdMatch_rem_length nm (c :: rest) arg rem hm
          simp only [List.length_cons] at hlen
          simp only [subnCmdGo, hm]
          rw [ih rem f2 (by omega) (by omega)]

/-- C1: for every input text, transform equals the fold described by the
spec — current starts as the text, each rule in registry order performs
one global substitution feeding the next rule, the returned string is
current after the last rule, and the log (the printed progress lines)
records (rule.name, count) exactly for the rules with a positive count,
in registry order. -/
theorem transform_eq_spec_fold (text : List Char) :
    transform text true =
      ((spec_transform text).1,
        List.map (fun p => fmtLine p.1 p.2) (spec_transform text).2) := by
  have h := transformVGo_spec CONVERSION_RULES text []
  simpa [transform, spec_transform] using h

/-- C2: transform turns the input \textcite\x7bfoo\x7d into @foo; the
textcite rule precedes the cite rule in the registry, and the cite rule's
pattern has no match anywhere in the input. -/
theorem transform_textcite_example :
    transformText "\\textcite\x7bfoo\x7d".data = "@foo".data ∧
    CONVERSION_RULES.findIdx (fun r => r.name == "textcite") <
      CONVERSION_RULES.findIdx (fun r => r.name == "cite") ∧
    cmdHasMatch ['c', 'i', 't', 'e'] "\\textcite\x7bfoo\x7d".data = false := by
  decide

/-- C4: transform replaces the two consecutive backslashes of the input
line one\\<newline>line two by a single backslash. -/
theorem transform_double_backslash_example :
    transformText "line one\\\\\nline two".data = "line one\\\nline two".data := by
  decide

/-- C5: on a text in which no rule's pattern has any match, transform
returns the text unchanged with an empty log, and a second application
still returns the same text; the empty string is such a text (see the
witness). -/
theorem transform_fixed_on_pattern_free (text : List Char)
    (h : ∀ r ∈ CONVERSION_RULES, ruleHasMatch r text = false) :
    transform text true = (text, []) ∧ transformText (transformText text) = text := by
  have h1 : transform text true = (text, []) := transformVGo_fixed CONVERSION_RULES text [] h
  have h2 : transformText text = text := by rw [transformText, h1]
  exact ⟨h1, by rw [h2, h2]⟩

/-- Witness for C5 at the empty string: no rule matches the empty string,
so transform maps it to the empty string with an empty log. -/
theorem transform_fixed_on_pattern_free_witness :
    (∀ r ∈ CONVERSION_RULES, ruleHasMatch r ([] : List Char) = false) ∧
    (transform [] true = ([], []) ∧ transformText (transformText []) = []) :=
  ⟨by decide, transform_fixed_on_pattern_free [] (by decide)⟩

/-- C6: transform is not idempotent — four consecutive backslashes become
two after one application and one after a second application. -/
theorem transform_not_idempotent :
    ∃ T : List Char, transformText (transformText T) ≠ transformText T :=
  ⟨['\\', '\\', '\\', '\\'], by decide⟩

/-- C7: transform is total.  The only recursion of the embedding that is
not structural in the text is the command-rule scan, and its fuel (the
length of the text) is never exhausted: any fuel of at least the text's
length yields the same result, so every rule application terminates
normally on every input.  A rule matching zero times returns the text
unchanged with count zero — the normal case, not an error. -/
theorem transform_total :
    (∀ (nm : List Char) (tmpl : List TmplItem) (s : List Char) (fuel : Nat),
        s.length ≤ fuel → subnCmdGo nm tmpl fuel s = subnCmd nm tmpl s) ∧
    (∀ (r : ConversionRule) (s : List Char),
        ruleHasMatch r s = false → applyRule r s = (s, 0)) := by
  constructor
  · intro nm tmpl s fuel h
    exact subnCmdGo_fuel nm tmpl fuel s s.length h (le_refl _)
  · exact applyRule_no_match

/-- Witness for C7 at concrete inputs: extra fuel does not change the
scan of the text abc, and the cite rule applied to abc (where it has no
match) returns abc with count zero. -/
theorem transform_total_witness :
    ("abc".data.length ≤ 9 ∧
      subnCmdGo ['c', 'i', 't', 'e'] [TmplItem.lit "@".data, TmplItem.group 1] 9 "abc".data =
        subnCmd ['c', 'i', 't', 'e'] [TmplItem.lit "@".data, TmplItem.group 1] "abc".data) ∧
    (ruleHasMatch
        ⟨RulePattern.command ['c', 'i', 't', 'e'],
          [TmplItem.lit "@".data, TmplItem.group 1], "cite", ""⟩ "abc".data = false ∧
      applyRule
        ⟨RulePattern.command ['c', 'i', 't', 'e'],
          [TmplItem.lit "@".data, TmplItem.group 1], "cite", ""⟩ "abc".data =
        ("abc".data, 0)) :=
  ⟨⟨by decide, transform_total.1 _ _ _ _ (by decide)⟩,
   ⟨by decide, transform_total.2 _ _ (by decide)⟩⟩

/-- C8: every rule of the registry is self-consistent — each capture
group referenced by its replacement template exists in its pattern, and
the rules whose pattern has no capture group (double backslash and line
comment) reference none. -/
theorem rules_group_refs_consistent :
    CONVERSION_RULES.all (fun r => tmplGroupsOk r.replacement r.pattern.numGroups) = true ∧
    (CONVERSION_RULES.filter (fun r => r.pattern.numGroups == 0)).all
      (fun r => !tmplHasGroupRef r.replacement) = true := by
  decide

/-- C9: the string returned by transform does not depend on the verbose
flag; verbosity only selects which progress lines are emitted. -/
theorem transform_independent_of_verbose (text : List Char) (v1 v2 : Bool) :
    (transform text v1).1 = (transform text v2).1 := by
  simp only [transform, transformVGo_fst]

/-- C10: the line-comment rule is the last rule of the registry, so the
command rules convert the content of a comment line first and the leading
percent sign is rewritten afterwards: %\section\x7bX\x7d becomes //== X. -/
theorem transform_comment_line_example :
    (CONVERSION_RULES.map (fun r => r.name)).getLast? = some "line comment" ∧
    transformText "%\\section\x7bX\x7d".data = "//== X".data := by
  decide

theorem cmdMatch_none_head (nm : List Char) (c : Char) (s : List Char) (h : ¬c = '\\') :
    cmdMatch nm (c :: s) = none := by
  simp [cmdMatch, h]

theorem subnCmdGo_zero (nm : List Char) (tmpl : List TmplItem) (s : List Char) :
    subnCmdGo nm tmpl 0 s = (s, 0) := by
  cases s <;> rfl

theorem frag_no_cmd (nm : List Char)
    (h : nm ∈ [['g', 'l', 's', 'p', 'l'], ['g', 'l', 's'], ['t', 'e', 'x', 't', 'i', 't'],
      ['e', 'm', 'p', 'h'], ['t', 'e', 'x', 't', 'b', 'f'], ['c', 'h', 'a', 'p', 't', 'e', 'r'],
      ['s', 'e', 'c', 't', 'i', 'o', 'n'], ['s', 'u', 'b', 's', 'e', 'c', 't', 'i', 'o', 'n'],
      ['s', 'u', 'b', 's', 'u', 'b', 's', 'e', 'c', 't', 'i', 'o', 'n'], ['l', 'a', 'b', 'e', 'l'],
      ['r', 'e', 'f'], ['t', 'e', 'x', 't', 'c', 'i', 't', 'e'], ['c', 'i', 't', 'e'],
      ['f', 'o', 'o', 't', 'n', 'o', 't', 'e'], ['e', 'n', 'q', 'u', 'o', 't', 'e']]) :
    ∀ u, cmdMatch nm (frag ++ u) = none := by
  fin_cases h <;> intro u <;>
    simp +decide [frag, cmdMatch, dropName, spanP, isPySpace, isArgChar]

theorem frag_arg_clash (cs v rem : List Char)
    (hchars : ∀ ch ∈ cs, isArgChar ch = true)
    (h : frag ++ v = cs ++ ('\x7d' :: rem)) : False := by
  simp only [frag, List.cons_append, List.nil_append] at h
  rcases cs with _ | ⟨x0, _ | ⟨x1, _ | ⟨x2, _ | ⟨x3, _ | ⟨x4, _ | ⟨x5, _ | ⟨x6, _ | ⟨x7, c8⟩⟩⟩⟩⟩⟩⟩⟩ <;>
    simp_all +decide [List.forall_mem_cons, isArgChar]
  exact absurd h.2.2.2.2.2.2.2.1.symm hchars.2.2.2.2.2.2.2.1.1

theorem cmdMatch_boundary (nm : List Char) (hbs : '\\' ∉ nm)
    (u v arg rem : List Char) (hu : u ≠ [])
    (h : cmdMatch nm (u ++ (frag ++ v)) = some (arg, rem)) :
    ∃ w, rem = w ++ (frag ++ v) := by
  obtain ⟨sp, hs, hsp, harg, hne⟩ := cmdMatch_decomp nm _ arg rem h
  cases u with
  | nil => exact absurd rfl hu
  | cons c u1 =>
    rw [List.cons_append] at hs
    injection hs with hc hs1
    rcases List.append_eq_append_iff.mp hs1 with ⟨t, hnm, hfv⟩ | ⟨t, hu1, hX⟩
    · cases t with
      | nil =>
        simp only [List.nil_append] at hfv
        cases sp with
        | nil =>
          simp only [List.nil_append] at hfv
          simp +decide [frag] at hfv
        | cons e sp1 =>
          have he : '\\' = e := by
            rw [List.cons_append] at hfv
            simp only [frag, List.cons_append, List.cons.injEq] at hfv
            exact hfv.1
          have hmem := hsp e (List.mem_cons_self e sp1)
          rw [← he] at hmem
          exact absurd hmem (by decide)
      | cons e t1 =>
        have he : '\\' = e := by
          rw [List.cons_append] at hfv
          simp only [frag, List.cons_append, List.cons.injEq] at hfv
          exact hfv.1
        have hmem : '\\' ∈ nm := by
          rw [hnm, he]
          exact List.mem_append_right _ (List.mem_cons_self e t1)
        exact absurd hmem hbs
    · rcases List.append_eq_append_iff.mp hX with ⟨t2, ht, hX2⟩ | ⟨t2, hsp2, hfv2⟩
      · cases t2 with
        | nil =>
          simp only [List.nil_append] at hX2
          simp +decide [frag] at hX2
        | cons e t3 =>
          rw [List.cons_append] at hX2
          injection hX2 with he hX3
          rcases List.append_eq_append_iff.mp hX3 with ⟨t4, ht3, hX4⟩ | ⟨t4, harg4, hfv4⟩
          · cases t4 with
            | nil =>
              simp only [List.nil_append] at hX4
              simp +decide [frag] at hX4
            | cons e2 t5 =>
              rw [List.cons_append] at hX4
              injection hX4 with he2 hrem
              exact ⟨t5, hrem⟩
          · exact (frag_arg_clash t4 v rem
              (fun ch hch => harg ch (by rw [harg4]; exact List.mem_append_right _ hch))
              hfv4).elim
      · cases t2 with
        | nil =>
          simp only [List.nil_append] at hfv2
          simp +decide [frag] at hfv2
        | cons e t3 =>
          have he : '\\' = e := by
            rw [List.cons_append] at hfv2
            simp only [frag, List.cons_append, List.cons.injEq] at hfv2
            exact hfv2.1
          have hmem := hsp e (by rw [hsp2]; exact List.mem_append_right _ (List.mem_cons_self e t3))
          rw [← he] at hmem
          exact absurd hmem (by decide)

theorem subnCmdGo_copy_nobs (nm : List Char) (tmpl : List TmplItem) :
    ∀ (fuel : Nat) (w v : List Char), '\\' ∉ w →
      ∃ t, (subnCmdGo nm tmpl fuel (w ++ v)).1 = w ++ t := by
  intro fuel
  induction fuel with
  | zero => intro w v _; exact ⟨v, by rw [subnCmdGo_zero]⟩
  | succ fuel ih =>
    intro w v hw
    cases w with
    | nil => exact ⟨(subnCmdGo nm tmpl (fuel + 1) v).1, by simp⟩
    | cons c w1 =>
      have hc : ¬c = '\\' := fun he => hw (he ▸ List.mem_cons_self c w1)
      obtain ⟨t, ht⟩ := ih w1 v (fun hm => hw (List.mem_cons_of_mem c hm))
      refine ⟨t, ?_⟩
      rw [List.cons_append]
      simp only [subnCmdGo, cmdMatch_none_head nm c (w1 ++ v) hc, ht]
      simp

theorem subnCmdGo_infix (nm : List Char) (tmpl : List TmplItem) (hbs : '\\' ∉ nm)
    (hfrag : ∀ u, cmdMatch nm (frag ++ u) = none) :
    ∀ (fuel : Nat) (u v : List Char),
      ∃ a b, (subnCmdGo nm tmpl fuel (u ++ (frag ++ v))).1 = a ++ (frag ++ b) := by
  intro fuel
  induction fuel with
  | zero => intro u v; exact ⟨u, v, by rw [subnCmdGo_zero]⟩
  | succ fuel ih =>
    intro u v
    cases u with
    | nil =>
      have hfv : frag ++ v =
          '\\' :: (['t', 'e', 'x', 't', 'b', 'f', '\x7b', 'a', '\x7b', 'b', '\x7d', 'c', '\x7d'] ++ v) := by
        simp [frag]
      have hnone : cmdMatch nm
          ('\\' :: (['t', 'e', 'x', 't', 'b', 'f', '\x7b', 'a', '\x7b', 'b', '\x7d', 'c', '\x7d'] ++ v)) =
          none := by
        rw [← hfv]; exact hfrag v
      obtain ⟨t, ht⟩ := subnCmdGo_copy_nobs nm tmpl fuel
        ['t', 'e', 'x', 't', 'b', 'f', '\x7b', 'a', '\x7b', 'b', '\x7d', 'c', '\x7d'] v (by decide)
      refine ⟨[], t, ?_⟩
      rw [List.nil_append, hfv]
      simp only [subnCmdGo, hnone, ht]
      simp [frag]
    | cons c u1 =>
      cases hm : cmdMatch nm (c :: (u1 ++ (frag ++ v))) with
      | none =>
        obtain ⟨a, b, hab⟩ := ih u1 v
        refine ⟨c :: a, b, ?_⟩
        rw [List.cons_append]
        simp only [subnCmdGo, hm, hab]
        simp
      | some pr =>
        obtain ⟨arg, rem⟩ := pr
        have hm2 : cmdMatch nm ((c :: u1) ++ (frag ++ v)) = some (arg, rem) := by
          rw [List.cons_append]; exact hm
        obtain ⟨w, hw⟩ := cmdMatch_boundary nm hbs (c :: u1) v arg rem (by simp) hm2
        obtain ⟨a, b, hab⟩ := ih w v
        refine ⟨applyTmpl tmpl arg ++ a, b, ?_⟩
        rw [List.cons_append]
        simp only [subnCmdGo, hm]
        rw [hw, hab]
        simp [List.append_assoc]

theorem cmd_rule_pres (nm : List Char) (tmpl : List TmplItem)
    (hbs : '\\' ∉ nm) (hfrag : ∀ u, cmdMatch nm (frag ++ u) = none)
    (s : List Char) (h : frag <:+: s) : frag <:+: (subnCmd nm tmpl s).1 := by
  obtain ⟨a, b, hab⟩ := h
  obtain ⟨a2, b2, hab2⟩ := subnCmdGo_infix nm tmpl hbs hfrag s.length a b
  refine ⟨a2, b2, ?_⟩
  subst hab
  rw [List.append_assoc a frag b] at hab2
  rw [subnCmd, List.append_assoc a frag b, hab2]
  simp [List.append_assoc]


theorem subnDouble_cons2 (rep : List Char) (c c2 : Char) (rest : List Char) :
    subnDouble rep (c :: c2 :: rest) =
      if c = '\\' ∧ c2 = '\\' then
        (rep ++ (subnDouble rep rest).1, (subnDouble rep rest).2 + 1)
      else
        (c :: (subnDouble rep (c2 :: rest)).1, (subnDouble rep (c2 :: rest)).2) := rfl

theorem frag_expand (v : List Char) : frag ++ v = '\\' :: (fragTail ++ v) := by
  simp [frag, fragTail]

theorem fragTail_expand (v : List Char) :
    fragTail ++ v = 't' :: (['e', 'x', 't', 'b', 'f', '\x7b', 'a', '\x7b', 'b', '\x7d', 'c', '\x7d'] ++ v) := by
  simp [fragTail]

theorem subnDouble_copy_nobs (rep : List Char) :
    ∀ (w v : List Char), '\\' ∉ w → ∃ t, (subnDouble rep (w ++ v)).1 = w ++ t := by
  intro w
  induction w with
  | nil => intro v _; exact ⟨(subnDouble rep v).1, by simp⟩
  | cons c w1 ih =>
    intro v hw
    have hc : ¬c = '\\' := fun he => hw (he ▸ List.mem_cons_self c w1)
    rw [List.cons_append]
    cases hX : w1 ++ v with
    | nil =>
      obtain ⟨hw1, hv⟩ := List.append_eq_nil.mp hX
      subst hw1
      subst hv
      exact ⟨[], by simp [subnDouble]⟩
    | cons c2 rest2 =>
      have hcond : ¬(c = '\\' ∧ c2 = '\\') := fun he => hc he.1
      obtain ⟨t, ht⟩ := ih v (fun hm => hw (List.mem_cons_of_mem c hm))
      refine ⟨t, ?_⟩
      rw [subnDouble_cons2, if_neg hcond, ← hX, ht]
      simp

theorem subnDouble_pres_nil (v : List Char) :
    ∃ t, (subnDouble ['\\'] (frag ++ v)).1 = frag ++ t := by
  obtain ⟨t, ht⟩ := subnDouble_copy_nobs ['\\'] fragTail v (by decide)
  refine ⟨t, ?_⟩
  rw [frag_expand, fragTail_expand, subnDouble_cons2,
    if_neg (by decide : ¬('\\' = '\\' ∧ 't' = '\\')), ← fragTail_expand, ht]
  simp [frag, fragTail]

theorem subnDouble_pres (n : Nat) :
    ∀ (u v : List Char), u.length ≤ n →
      ∃ a b, (subnDouble ['\\'] (u ++ (frag ++ v))).1 = a ++ (frag ++ b) := by
  induction n with
  | zero =>
    intro u v h
    have hu : u = [] := List.eq_nil_of_length_eq_zero (Nat.le_zero.mp h)
    subst hu
    obtain ⟨t, ht⟩ := subnDouble_pres_nil v
    exact ⟨[], t, by simpa using ht⟩
  | succ n ih =>
    intro u v h
    cases u with
    | nil =>
      obtain ⟨t, ht⟩ := subnDouble_pres_nil v
      exact ⟨[], t, by simpa using ht⟩
    | cons c u1 =>
      cases u1 with
      | nil =>
        by_cases hc : c = '\\'
        · obtain ⟨t, ht⟩ := subnDouble_copy_nobs ['\\'] fragTail v (by decide)
          refine ⟨[], t, ?_⟩
          subst hc
          rw [List.singleton_append, frag_expand, subnDouble_cons2,
            if_pos ⟨rfl, rfl⟩, ht]
          simp [frag, fragTail]
        · obtain ⟨t, ht⟩ := subnDouble_pres_nil v
          refine ⟨[c], t, ?_⟩
          have hcond : ¬(c = '\\' ∧ '\\' = '\\') := fun he => hc he.1
          rw [List.singleton_append, frag_expand, subnDouble_cons2, if_neg hcond,
            ← frag_expand, ht]
          simp
      | cons c2 u2 =>
        by_cases hcc : c = '\\' ∧ c2 = '\\'
        · obtain ⟨a, b, hab⟩ := ih u2 v (by simp at h; omega)
          refine ⟨'\\' :: a, b, ?_⟩
          rw [List.cons_append, List.cons_append, subnDouble_cons2, if_pos hcc]
          simp only [hab]
          simp
        · obtain ⟨a, b, hab⟩ := ih (c2 :: u2) v (by simp at h ⊢; omega)
          refine ⟨c :: a, b, ?_⟩
          rw [List.cons_append, List.cons_append, subnDouble_cons2, if_neg hcc,
            ← List.cons_append c2, hab]
          simp

theorem subnLineComment_copy (rep : List Char) :
    ∀ (w : List Char) (b : Bool) (v : List Char), '%' ∉ w →
      ∃ t, (subnLineComment rep b (w ++ v)).1 = w ++ t := by
  intro w
  induction w with
  | nil => intro b v _; exact ⟨(subnLineComment rep b v).1, by simp⟩
  | cons c w1 ih =>
    intro b v hw
    have hc : ¬c = '%' := fun he => hw (he ▸ List.mem_cons_self c w1)
    have hcond : ¬(b = true ∧ c = '%') := fun he => hc he.2
    obtain ⟨t, ht⟩ := ih (decide (c = '\n')) v (fun hm => hw (List.mem_cons_of_mem c hm))
    refine ⟨t, ?_⟩
    rw [List.cons_append]
    simp only [subnLineComment, if_neg hcond, ht]
    simp

theorem subnLineComment_pres (rep : List Char) :
    ∀ (u : List Char) (b : Bool) (v : List Char),
      ∃ a t, (subnLineComment rep b (u ++ (frag ++ v))).1 = a ++ (frag ++ t) := by
  intro u
  induction u with
  | nil =>
    intro b v
    obtain ⟨t, ht⟩ := subnLineComment_copy rep frag b v (by decide)
    exact ⟨[], t, by simpa using ht⟩
  | cons c u1 ih =>
    intro b v
    by_cases hcond : b = true ∧ c = '%'
    · obtain ⟨a, t, hat⟩ := ih false v
      refine ⟨rep ++ a, t, ?_⟩
      rw [List.cons_append]
      simp only [subnLineComment, if_pos hcond, hat]
      simp [List.append_assoc]
    · obtain ⟨a, t, hat⟩ := ih (decide (c = '\n')) v
      refine ⟨c :: a, t, ?_⟩
      rw [List.cons_append]
      simp only [subnLineComment, if_neg hcond, hat]
      simp

theorem dbl_rule_pres (s : List Char) (h : frag <:+: s) :
    frag <:+: (subnDouble ['\\'] s).1 := by
  obtain ⟨a, b, hab⟩ := h
  obtain ⟨a2, b2, hab2⟩ := subnDouble_pres a.length a b (le_refl _)
  refine ⟨a2, b2, ?_⟩
  subst hab
  rw [List.append_assoc a frag b, hab2]
  simp [List.append_assoc]

theorem lc_rule_pres (rep : List Char) (s : List Char) (h : frag <:+: s) :
    frag <:+: (subnLineComment rep true s).1 := by
  obtain ⟨a, b, hab⟩ := h
  obtain ⟨a2, b2, hab2⟩ := subnLineComment_pres rep a true b
  refine ⟨a2, b2, ?_⟩
  subst hab
  rw [List.append_assoc a frag b, hab2]
  simp [List.append_assoc]

theorem applyRule_pres (r : ConversionRule) (hr : r ∈ CONVERSION_RULES)
    (s : List Char) (h : frag <:+: s) : frag <:+: (applyRule r s).1 := by
  fin_cases hr <;>
    first
      | exact cmd_rule_pres _ _ (by decide) (frag_no_cmd _ (by decide)) s h
      | exact dbl_rule_pres s h
      | exact lc_rule_pres _ s h

theorem transformVGo_pres (rs : List ConversionRule) :
    (∀ r ∈ rs, r ∈ CONVERSION_RULES) →
      ∀ (text : List Char) (lines : List (List Char)), frag <:+: text →
        frag <:+: (transformVGo true rs text lines).1 := by
  induction rs with
  | nil => intro _ text lines h; exact h
  | cons r rs ih =>
    intro hsub text lines h
    simp only [transformVGo]
    exact ih (fun q hq => hsub q (List.mem_cons_of_mem r hq)) _ _
      (applyRule_pres r (hsub r (List.mem_cons_self r rs)) text h)

/-- C3: any input containing the fragment \textbf\x7ba\x7bb\x7dc\x7d
still contains that fragment after transform: no command rule can match
it (its argument contains braces), and no rule application of the
registry removes or alters it, so it passes through untouched. -/
theorem transform_preserves_nested_textbf (s : List Char) (h : frag <:+: s) :
    frag <:+: transformText s :=
  transformVGo_pres CONVERSION_RULES (fun _ hq => hq) s [] h

/-- Witness for C3 at the concrete input A\textbf\x7ba\x7bb\x7dc\x7dB. -/
theorem transform_preserves_nested_textbf_witness :
    frag <:+: ('A' :: (frag ++ ['B'])) ∧
      frag <:+: transformText ('A' :: (frag ++ ['B'])) :=
  ⟨by decide, transform_preserves_nested_textbf _ (by decide)⟩
